import Mathlib

/-!
Verification of the `industries_summarizer` pipeline: a shallow embedding of
the Dedup Store, the Link Processor (`Summarizer.process_url` and its helpers),
Link Discovery (`SearchResultAggregator`), and the Report Aggregator
(`ReportGenerator` / `report_parser`), together with theorems settling the
stated behavioural properties.

Conventions of the embedding:
- Python dicts with string keys are association lists with in-place update
  (`setA`), preserving insertion order exactly as CPython dicts do.
- Fallible external effects (page fetch, model call, file writes) are supplied
  through an `Env` record; an operation that can raise is modelled with
  `Except Unit`, where `.error ()` is a raised exception.
- Side effects are recorded in an explicit event trace so that claims about
  "no duplicate model call", "progress advanced once", etc. are claims about
  the trace of the embedded function.
-/

/-- Python `s.startswith(p)`, modelled over the character list so that it is
kernel-computable on literals. -/
def str_startswith (s p : String) : Bool := p.toList.isPrefixOf s.toList

/-- Python `s.endswith(p)`, modelled over the character list. -/
def str_endswith (s p : String) : Bool := p.toList.isSuffixOf s.toList

/-- Association-list lookup, mirroring Python `d.get(k)`. -/
def lookupA {α : Type} : List (String × α) → String → Option α
  | [], _ => none
  | (k, v) :: rest, key => if k = key then some v else lookupA rest key

/-- Association-list update, mirroring Python `d[k] = v` (in-place update of an
existing key, append of a new key — CPython dict insertion-order semantics). -/
def setA {α : Type} : List (String × α) → String → α → List (String × α)
  | [], key, v => [(key, v)]
  | (k, w) :: rest, key, v =>
    if k = key then (key, v) :: rest else (k, w) :: setA rest key v

theorem lookupA_setA_self {α : Type} (l : List (String × α)) (k : String) (v : α) :
    lookupA (setA l k v) k = some v := by
  induction l with
  | nil => simp [setA, lookupA]
  | cons p rest ih =>
    by_cases h : p.1 = k
    · simp [setA, lookupA, h]
    · simp [setA, lookupA, h, ih]

theorem lookupA_setA_ne {α : Type} (l : List (String × α)) (k k' : String) (v : α)
    (h : k' ≠ k) : lookupA (setA l k v) k' = lookupA l k' := by
  have hne : ¬(k = k') := fun hh => h hh.symm
  induction l with
  | nil => simp [setA, lookupA, hne]
  | cons p rest ih =>
    by_cases hk : p.1 = k
    · simp [setA, lookupA, hk, hne]
    · by_cases hk' : p.1 = k'
      · simp [setA, lookupA, hk, hk', h, hne]
      · simp [setA, lookupA, hk, hk', ih]

namespace Summarizer

/-- The Dedup Store: `{industry -> {url -> relative path of the summary}}`,
the parsed shape of `summarized_sources/processed_links.json`. -/
abbrev Store := List (String × List (String × String))

/-- `url in self.processed_links.get(industry, {})`. -/
def storeContains (s : Store) (industry url : String) : Bool :=
  (lookupA ((lookupA s industry).getD []) url).isSome

/-- `self.processed_links.get(industry, {}).get(url)`. -/
def storeLookup (s : Store) (industry url : String) : Option String :=
  lookupA ((lookupA s industry).getD []) url

/-- The in-memory mutation performed by `save_processed_link`:
`if industry not in d: d[industry] = {}` followed by
`d[industry][url] = filepath`. -/
def storeInsert (s : Store) (industry url filepath : String) : Store :=
  setA s industry (setA ((lookupA s industry).getD []) url filepath)

theorem storeLookup_storeInsert_self (s : Store) (industry url fp : String) :
    storeLookup (storeInsert s industry url fp) industry url = some fp := by
  simp [storeLookup, storeInsert, lookupA_setA_self]

theorem storeContains_storeInsert_self (s : Store) (industry url fp : String) :
    storeContains (storeInsert s industry url fp) industry url = true := by
  simp [storeContains, storeInsert, lookupA_setA_self]

theorem storeLookup_storeInsert_ne_url (s : Store) (industry url url' fp : String)
    (h : url' ≠ url) :
    storeLookup (storeInsert s industry url fp) industry url' =
      storeLookup s industry url' := by
  simp [storeLookup, storeInsert, lookupA_setA_self, lookupA_setA_ne _ _ _ _ h]

/-- Observable side effects of the Link Processor, in program order. -/
inductive Event where
  | fetch            -- `WebBaseLoader(url); loader.load()`
  | modelCall        -- `self.llm_chain.invoke(...)`
  | summaryFileWrite -- write of `summarized_sources/<industry>/<host>.md`
  | dedupStoreWrite  -- rewrite of `processed_links.json`
  | progressUpdate   -- `progress_bar.update(1)`
  | semAcquire       -- entering `async with self.semaphore`
  | semRelease       -- leaving `async with self.semaphore`
deriving DecidableEq, Repr

/-- Number of occurrences of event `e` in a trace. -/
def countEv (e : Event) (t : List Event) : Nat :=
  t.countP (fun x => decide (x = e))

/-- Mutable attributes of the `Summarizer` instance, plus the content of the
persisted Dedup Store file (`file`). -/
structure SummState where
  processed_links : Store
  file : Store
  summarized_links : Nat
  progress : Nat
  need_save_summary : Bool
deriving DecidableEq, Repr

/-- Outcomes of the external collaborators during one `process_url` call.
`bodyRaises` models an unexpected exception raised inside the
`async with self.semaphore:` block (e.g. by the progress-bar collaborator),
exercising the `except` handler of `process_url`; calls outside that `try`
are modelled as non-raising. -/
structure Env where
  bodyRaises : Bool
  loadDoc : Option String          -- `loader.load()`: `none` = exception (caught)
  llmResult : Except Unit String   -- `llm_chain.invoke`: raise, or `result.content`
  fileWriteFails : Bool            -- makedirs / aiofiles write raises
  storeWriteFails : Bool           -- `open`/`json.dump` of the store file raises
deriving Repr

/-- Result of one embedded operation: the new instance state, the trace of
side effects, and the returned value (with `Except` when it can raise). -/
structure Res (α : Type) where
  st : SummState
  trace : List Event
  val : α
deriving Repr

/-- `urlparse(url).netloc`, with a leading `www.` stripped
(`Summarizer.extract_name_from_url`). -/
def extract_name_from_url (url : String) : String :=
  let rest :=
    match url.splitOn "//" with
    | _ :: r :: _ => r
    | _ => ""
  let domain := (rest.splitOn "/").headD ""
  let domain := (domain.splitOn "?").headD ""
  let domain := (domain.splitOn "#").headD ""
  if str_startswith domain "www." then domain.drop 4 else domain

/-- The relative path under which `save_summary` stores the artifact:
`summarized_sources/<industry>/<host>.md`. -/
def filepathFor (industry url : String) : String :=
  "summarized_sources/" ++ industry ++ "/" ++ extract_name_from_url url ++ ".md"

/-- `Summarizer.load_processed_links`. The input models the persisted file:
`none` = file absent; `some (.ok s)` = file present and `json.load` parses it
to `s`; `some (.error ())` = file present but `json.load` raises. The source
checks `os.path.exists` and otherwise calls `json.load` with no exception
handler, so a parse failure propagates. -/
def load_processed_links (file : Option (Except Unit Store)) : Except Unit Store :=
  match file with
  | some parsed => parsed
  | none => .ok []

/-- `Summarizer.save_processed_link(url, industry, filepath)`: mutates the
in-memory dict, then rewrites the store file from the in-memory dict (it does
not read the file). If the rewrite raises, the memory mutation has already
happened and the exception propagates to the caller. -/
def save_processed_link (st : SummState) (env : Env)
    (url industry filepath : String) : Res (Except Unit Unit) :=
  let pl := storeInsert st.processed_links industry url filepath
  if env.storeWriteFails then
    ⟨{ st with processed_links := pl }, [], .error ()⟩
  else
    ⟨{ st with processed_links := pl, file := pl }, [Event.dedupStoreWrite], .ok ()⟩

/-- `Summarizer.save_summary(url, industry, summary)`: whole body inside
`try/except Exception`, so it never raises; on success it writes the summary
file and then records the link in the Dedup Store. -/
def save_summary (st : SummState) (env : Env)
    (url industry _summary : String) : Res (Except Unit Unit) :=
  if env.fileWriteFails then
    ⟨st, [], .ok ()⟩
  else
    let r := save_processed_link st env url industry (filepathFor industry url)
    ⟨r.st, Event.summaryFileWrite :: r.trace, .ok ()⟩

/-- `Summarizer.summarize(url, industry)`: load the document (failure caught
inside `load_document`, returning `None`), invoke the model (failure caught,
returning `None`), and — when `need_save_summary` — save the summary before
returning it. -/
def summarize (st : SummState) (env : Env) (url industry : String) :
    Res (Option String) :=
  match env.loadDoc with
  | none => ⟨st, [Event.fetch], none⟩
  | some _docs =>
    match env.llmResult with
    | .error _ => ⟨st, [Event.fetch, Event.modelCall], none⟩
    | .ok summary =>
      if st.need_save_summary then
        let r := save_summary st env url industry summary
        ⟨r.st, Event.fetch :: Event.modelCall :: r.trace, some summary⟩
      else
        ⟨st, [Event.fetch, Event.modelCall], some summary⟩

/-- `Summarizer.process_url(url, industry, progress_bar)`: skip links already
in the Dedup Store; otherwise work inside `async with self.semaphore`, calling
`summarize` and then (`summary is not None and self.need_save_summary`)
`save_summary` a second time, incrementing `summarized_links`; exceptions in
the block are caught after the semaphore is released and still advance the
progress bar. -/
def process_url (st : SummState) (env : Env) (url industry : String) :
    Res (Option String) :=
  if storeContains st.processed_links industry url then
    ⟨{ st with progress := st.progress + 1 }, [Event.progressUpdate], none⟩
  else if env.bodyRaises then
    ⟨{ st with progress := st.progress + 1 },
     [Event.semAcquire, Event.semRelease, Event.progressUpdate], none⟩
  else
    let r := summarize st env url industry
    match r.val with
    | some s =>
      if r.st.need_save_summary then
        let r2 := save_summary r.st env url industry s
        ⟨{ r2.st with summarized_links := r2.st.summarized_links + 1,
                      progress := r2.st.progress + 1 },
         Event.semAcquire ::
           (r.trace ++ r2.trace ++ [Event.progressUpdate, Event.semRelease]),
         some s⟩
      else
        ⟨{ r.st with progress := r.st.progress + 1 },
         Event.semAcquire :: (r.trace ++ [Event.progressUpdate, Event.semRelease]),
         some s⟩
    | none =>
      ⟨{ r.st with progress := r.st.progress + 1 },
       Event.semAcquire :: (r.trace ++ [Event.progressUpdate, Event.semRelease]),
       none⟩

/-- Sequential composition of `process_url` over a batch of
(environment, url, industry) triples, as far as the instance state is
concerned (each call's state update is atomic with respect to the event
loop). -/
def processBatch (st : SummState) (links : List (Env × String × String)) :
    SummState :=
  links.foldl (fun s t => (process_url s t.1 t.2.1 t.2.2).st) st

theorem save_summary_eq_ok (st : SummState) (env : Env) (url industry s : String)
    (hf : env.fileWriteFails = false) (hw : env.storeWriteFails = false) :
    save_summary st env url industry s =
      ⟨{ st with
           processed_links :=
             storeInsert st.processed_links industry url (filepathFor industry url),
           file :=
             storeInsert st.processed_links industry url (filepathFor industry url) },
       [Event.summaryFileWrite, Event.dedupStoreWrite], .ok ()⟩ := by
  simp [save_summary, save_processed_link, hf, hw]

theorem save_summary_eq_fileFail (st : SummState) (env : Env) (url industry s : String)
    (hf : env.fileWriteFails = true) :
    save_summary st env url industry s = ⟨st, [], .ok ()⟩ := by
  simp [save_summary, hf]

theorem save_summary_eq_storeFail (st : SummState) (env : Env) (url industry s : String)
    (hf : env.fileWriteFails = false) (hw : env.storeWriteFails = true) :
    save_summary st env url industry s =
      ⟨{ st with
           processed_links :=
             storeInsert st.processed_links industry url (filepathFor industry url) },
       [Event.summaryFileWrite], .ok ()⟩ := by
  simp [save_summary, save_processed_link, hf, hw]

theorem summarize_eq_fetchFail (st : SummState) (env : Env) (url industry : String)
    (hd : env.loadDoc = none) :
    summarize st env url industry = ⟨st, [Event.fetch], none⟩ := by
  simp [summarize, hd]

theorem summarize_eq_llmFail (st : SummState) (env : Env) (url industry d : String)
    (hd : env.loadDoc = some d) (hs : env.llmResult = .error ()) :
    summarize st env url industry = ⟨st, [Event.fetch, Event.modelCall], none⟩ := by
  simp [summarize, hd, hs]

theorem summarize_eq_success (st : SummState) (env : Env) (url industry d s : String)
    (hd : env.loadDoc = some d) (hs : env.llmResult = .ok s)
    (hn : st.need_save_summary = true)
    (hf : env.fileWriteFails = false) (hw : env.storeWriteFails = false) :
    summarize st env url industry =
      ⟨{ st with
           processed_links :=
             storeInsert st.processed_links industry url (filepathFor industry url),
           file :=
             storeInsert st.processed_links industry url (filepathFor industry url) },
       [Event.fetch, Event.modelCall, Event.summaryFileWrite, Event.dedupStoreWrite],
       some s⟩ := by
  simp [summarize, hd, hs, hn, save_summary_eq_ok st env url industry s hf hw]

theorem summarize_eq_success_noSave (st : SummState) (env : Env)
    (url industry d s : String)
    (hd : env.loadDoc = some d) (hs : env.llmResult = .ok s)
    (hn : st.need_save_summary = false) :
    summarize st env url industry =
      ⟨st, [Event.fetch, Event.modelCall], some s⟩ := by
  simp [summarize, hd, hs, hn]

theorem save_summary_preserves (st : SummState) (env : Env) (url industry s : String) :
    (save_summary st env url industry s).st.progress = st.progress ∧
    (save_summary st env url industry s).st.summarized_links = st.summarized_links ∧
    (save_summary st env url industry s).st.need_save_summary =
      st.need_save_summary := by
  cases hf : env.fileWriteFails <;> cases hw : env.storeWriteFails <;>
    simp [save_summary, save_processed_link, hf, hw]

theorem summarize_preserves (st : SummState) (env : Env) (url industry : String) :
    (summarize st env url industry).st.progress = st.progress ∧
    (summarize st env url industry).st.summarized_links = st.summarized_links ∧
    (summarize st env url industry).st.need_save_summary = st.need_save_summary := by
  cases hd : env.loadDoc with
  | none => simp [summarize, hd]
  | some d =>
    cases hs : env.llmResult with
    | error e => simp [summarize, hd, hs]
    | ok s =>
      cases hn : st.need_save_summary with
      | false => simp [summarize, hd, hs, hn]
      | true =>
        simp only [summarize, hd, hs, hn, if_true]
        exact hn ▸ save_summary_preserves st env url industry s

theorem process_url_eq_dedup (st : SummState) (env : Env) (url industry : String)
    (hc : storeContains st.processed_links industry url = true) :
    process_url st env url industry =
      ⟨{ st with progress := st.progress + 1 }, [Event.progressUpdate], none⟩ := by
  simp [process_url, hc]

theorem process_url_eq_raise (st : SummState) (env : Env) (url industry : String)
    (hc : storeContains st.processed_links industry url = false)
    (hb : env.bodyRaises = true) :
    process_url st env url industry =
      ⟨{ st with progress := st.progress + 1 },
       [Event.semAcquire, Event.semRelease, Event.progressUpdate], none⟩ := by
  simp [process_url, hc, hb]

theorem process_url_eq_none (st st1 : SummState) (env : Env)
    (url industry : String) (tr : List Event)
    (hc : storeContains st.processed_links industry url = false)
    (hb : env.bodyRaises = false)
    (hsum : summarize st env url industry = ⟨st1, tr, none⟩) :
    process_url st env url industry =
      ⟨{ st1 with progress := st1.progress + 1 },
       Event.semAcquire :: (tr ++ [Event.progressUpdate, Event.semRelease]),
       none⟩ := by
  simp [process_url, hc, hb, hsum]

theorem process_url_eq_some_noSave (st st1 : SummState) (env : Env)
    (url industry s : String) (tr : List Event)
    (hc : storeContains st.processed_links industry url = false)
    (hb : env.bodyRaises = false)
    (hsum : summarize st env url industry = ⟨st1, tr, some s⟩)
    (hn : st1.need_save_summary = false) :
    process_url st env url industry =
      ⟨{ st1 with progress := st1.progress + 1 },
       Event.semAcquire :: (tr ++ [Event.progressUpdate, Event.semRelease]),
       some s⟩ := by
  simp [process_url, hc, hb, hsum, hn]

theorem process_url_eq_some_save (st st1 : SummState) (env : Env)
    (url industry s : String) (tr : List Event)
    (hc : storeContains st.processed_links industry url = false)
    (hb : env.bodyRaises = false)
    (hsum : summarize st env url industry = ⟨st1, tr, some s⟩)
    (hn : st1.need_save_summary = true) :
    process_url st env url industry =
      ⟨{ (save_summary st1 env url industry s).st with
           summarized_links :=
             (save_summary st1 env url industry s).st.summarized_links + 1,
           progress := (save_summary st1 env url industry s).st.progress + 1 },
       Event.semAcquire ::
         (tr ++ (save_summary st1 env url industry s).trace ++
           [Event.progressUpdate, Event.semRelease]),
       some s⟩ := by
  simp [process_url, hc, hb, hsum, hn]

theorem process_url_eq_success (st : SummState) (env : Env)
    (url industry d s : String)
    (hc : storeContains st.processed_links industry url = false)
    (hb : env.bodyRaises = false)
    (hd : env.loadDoc = some d) (hs : env.llmResult = .ok s)
    (hn : st.need_save_summary = true)
    (hf : env.fileWriteFails = false) (hw : env.storeWriteFails = false) :
    process_url st env url industry =
      ⟨{ st with
           processed_links :=
             storeInsert
               (storeInsert st.processed_links industry url
                 (filepathFor industry url))
               industry url (filepathFor industry url),
           file :=
             storeInsert
               (storeInsert st.processed_links industry url
                 (filepathFor industry url))
               industry url (filepathFor industry url),
           summarized_links := st.summarized_links + 1,
           progress := st.progress + 1 },
       [Event.semAcquire, Event.fetch, Event.modelCall, Event.summaryFileWrite,
        Event.dedupStoreWrite, Event.summaryFileWrite, Event.dedupStoreWrite,
        Event.progressUpdate, Event.semRelease],
       some s⟩ := by
  have hsum := summarize_eq_success st env url industry d s hd hs hn hf hw
  rw [process_url_eq_some_save st _ env url industry s _ hc hb hsum (by simp [hn])]
  simp [save_summary_eq_ok _ env url industry s hf hw]

theorem summarize_eq_success_fileFail (st : SummState) (env : Env)
    (url industry d s : String)
    (hd : env.loadDoc = some d) (hs : env.llmResult = .ok s)
    (hn : st.need_save_summary = true) (hf : env.fileWriteFails = true) :
    summarize st env url industry =
      ⟨st, [Event.fetch, Event.modelCall], some s⟩ := by
  simp [summarize, hd, hs, hn, save_summary_eq_fileFail st env url industry s hf]

theorem process_url_eq_fileFail (st : SummState) (env : Env)
    (url industry d s : String)
    (hc : storeContains st.processed_links industry url = false)
    (hb : env.bodyRaises = false)
    (hd : env.loadDoc = some d) (hs : env.llmResult = .ok s)
    (hn : st.need_save_summary = true) (hf : env.fileWriteFails = true) :
    process_url st env url industry =
      ⟨{ st with summarized_links := st.summarized_links + 1,
                 progress := st.progress + 1 },
       [Event.semAcquire, Event.fetch, Event.modelCall, Event.progressUpdate,
        Event.semRelease],
       some s⟩ := by
  have hsum := summarize_eq_success_fileFail st env url industry d s hd hs hn hf
  rw [process_url_eq_some_save st st env url industry s _ hc hb hsum hn]
  simp [save_summary_eq_fileFail st env url industry s hf]

theorem countEv_cons (e x : Event) (t : List Event) :
    countEv e (x :: t) = countEv e t + (if x = e then 1 else 0) := by
  simp [countEv, List.countP_cons]

theorem countEv_append (e : Event) (a b : List Event) :
    countEv e (a ++ b) = countEv e a + countEv e b := by
  simp [countEv, List.countP_append]

theorem countEv_nil (e : Event) : countEv e [] = 0 := rfl

theorem save_summary_counts (st : SummState) (env : Env) (url industry s : String) :
    countEv Event.progressUpdate (save_summary st env url industry s).trace = 0 ∧
    countEv Event.semAcquire (save_summary st env url industry s).trace = 0 ∧
    countEv Event.semRelease (save_summary st env url industry s).trace = 0 := by
  cases hf : env.fileWriteFails with
  | true =>
    rw [save_summary_eq_fileFail st env url industry s hf]; exact ⟨rfl, rfl, rfl⟩
  | false =>
    cases hw : env.storeWriteFails with
    | true =>
      rw [save_summary_eq_storeFail st env url industry s hf hw]
      exact ⟨rfl, rfl, rfl⟩
    | false =>
      rw [save_summary_eq_ok st env url industry s hf hw]; exact ⟨rfl, rfl, rfl⟩

theorem summarize_counts (st : SummState) (env : Env) (url industry : String) :
    countEv Event.progressUpdate (summarize st env url industry).trace = 0 ∧
    countEv Event.semAcquire (summarize st env url industry).trace = 0 ∧
    countEv Event.semRelease (summarize st env url industry).trace = 0 := by
  cases hd : env.loadDoc with
  | none =>
    rw [summarize_eq_fetchFail st env url industry hd]; exact ⟨rfl, rfl, rfl⟩
  | some d =>
    cases hs : env.llmResult with
    | error u =>
      cases u
      rw [summarize_eq_llmFail st env url industry d hd hs]; exact ⟨rfl, rfl, rfl⟩
    | ok s =>
      cases hn : st.need_save_summary with
      | false =>
        rw [summarize_eq_success_noSave st env url industry d s hd hs hn]
        exact ⟨rfl, rfl, rfl⟩
      | true =>
        obtain ⟨h1, h2, h3⟩ := save_summary_counts st env url industry s
        simp only [summarize, hd, hs, hn, if_true]
        refine ⟨?_, ?_, ?_⟩ <;>
          simp [countEv_cons, countEv_append, countEv_nil, h1, h2, h3]

theorem process_url_step_progress (st : SummState) (env : Env)
    (url industry : String) :
    countEv Event.progressUpdate (process_url st env url industry).trace = 1 ∧
    (process_url st env url industry).st.progress = st.progress + 1 := by
  by_cases hc : storeContains st.processed_links industry url = true
  · rw [process_url_eq_dedup st env url industry hc]; exact ⟨rfl, rfl⟩
  · have hcf : storeContains st.processed_links industry url = false := by
      simpa using hc
    by_cases hb : env.bodyRaises = true
    · rw [process_url_eq_raise st env url industry hcf hb]; exact ⟨rfl, rfl⟩
    · have hbf : env.bodyRaises = false := by simpa using hb
      have hpres := summarize_preserves st env url industry
      have hcnt := summarize_counts st env url industry
      rcases hvv : summarize st env url industry with ⟨st1, tr, v⟩
      rw [hvv] at hpres hcnt
      have hp1 : st1.progress = st.progress := hpres.1
      have hc1 : countEv Event.progressUpdate tr = 0 := hcnt.1
      cases v with
      | none =>
        rw [process_url_eq_none st st1 env url industry tr hcf hbf hvv]
        refine ⟨?_, ?_⟩
        · simp [countEv_cons, countEv_append, countEv_nil, hc1]
        · show st1.progress + 1 = st.progress + 1
          rw [hp1]
      | some s =>
        by_cases hn : st1.need_save_summary = true
        · rw [process_url_eq_some_save st st1 env url industry s tr hcf hbf hvv hn]
          have hsp1 : (save_summary st1 env url industry s).st.progress =
              st1.progress := (save_summary_preserves st1 env url industry s).1
          have hsc1 : countEv Event.progressUpdate
              (save_summary st1 env url industry s).trace = 0 :=
            (save_summary_counts st1 env url industry s).1
          refine ⟨?_, ?_⟩
          · simp [countEv_cons, countEv_append, countEv_nil, hc1, hsc1]
          · show (save_summary st1 env url industry s).st.progress + 1 =
              st.progress + 1
            rw [hsp1, hp1]
        · have hnf : st1.need_save_summary = false := by simpa using hn
          rw [process_url_eq_some_noSave st st1 env url industry s tr hcf hbf hvv hnf]
          refine ⟨?_, ?_⟩
          · simp [countEv_cons, countEv_append, countEv_nil, hc1]
          · show st1.progress + 1 = st.progress + 1
            rw [hp1]

/-- True on the two semaphore events. -/
def isSem : Event → Bool
  | Event.semAcquire => true
  | Event.semRelease => true
  | _ => false

/-- A trace fragment containing no semaphore events. -/
def noSem (t : List Event) : Bool := t.all (fun e => !(isSem e))

/-- A trace fragment containing no model invocation. -/
def noModel (t : List Event) : Bool :=
  t.all (fun e => !(decide (e = Event.modelCall)))

theorem noSem_append (a b : List Event) :
    noSem (a ++ b) = (noSem a && noSem b) := by
  simp [noSem, List.all_append]

theorem countEv_eq_zero_of_not_mem {e : Event} {t : List Event}
    (h : e ∉ t) : countEv e t = 0 := by
  induction t with
  | nil => rfl
  | cons x rest ih =>
    have hx : ¬(x = e) := fun hh => h (hh ▸ List.mem_cons_self x rest)
    rw [countEv_cons, ih (fun hm => h (List.mem_cons_of_mem x hm)), if_neg hx]

theorem noSem_counts {t : List Event} (h : noSem t = true) :
    countEv Event.semAcquire t = 0 ∧ countEv Event.semRelease t = 0 := by
  simp only [noSem, List.all_eq_true] at h
  constructor <;> apply countEv_eq_zero_of_not_mem <;> intro hm <;>
    exact absurd (h _ hm) (by simp [isSem])

/-- Well-formedness of one cooperative task with respect to the admission
gate, indexed by whether the task currently holds a slot: a task either never
touches the semaphore (and then performs no model call), or performs exactly
one acquire/release bracket with all model calls inside it. Every
`process_url` trace satisfies the non-holding shape. -/
inductive TaskOK : Bool → List Event → Prop where
  | nosem (t : List Event) :
      noSem t = true → noModel t = true → TaskOK false t
  | pending (a b c : List Event) :
      noSem a = true → noSem b = true → noSem c = true →
      noModel a = true → noModel c = true →
      TaskOK false (a ++ Event.semAcquire :: (b ++ Event.semRelease :: c))
  | holding (b c : List Event) :
      noSem b = true → noSem c = true → noModel c = true →
      TaskOK true (b ++ Event.semRelease :: c)

theorem taskOK_acquire_aux {hold : Bool} {t : List Event} (h : TaskOK hold t) :
    ∀ rest, t = Event.semAcquire :: rest → hold = false ∧ TaskOK true rest := by
  cases h with
  | nosem t hs hm =>
    intro rest heq
    subst heq
    simp [noSem, List.all_cons, isSem] at hs
  | pending a b c hsa hsb hsc hma hmc =>
    intro rest heq
    cases a with
    | nil =>
      simp only [List.nil_append] at heq
      have hr : rest = b ++ Event.semRelease :: c := (List.cons.inj heq).2.symm
      refine ⟨rfl, ?_⟩
      rw [hr]
      exact TaskOK.holding b c hsb hsc hmc
    | cons x a' =>
      simp only [List.cons_append] at heq
      have hx : x = Event.semAcquire := (List.cons.inj heq).1
      subst hx
      simp [noSem, List.all_cons, isSem] at hsa
  | holding b c hsb hsc hmc =>
    intro rest heq
    cases b with
    | nil =>
      simp only [List.nil_append] at heq
      exact absurd (List.cons.inj heq).1 (by simp)
    | cons x b' =>
      simp only [List.cons_append] at heq
      have hx : x = Event.semAcquire := (List.cons.inj heq).1
      subst hx
      simp [noSem, List.all_cons, isSem] at hsb

theorem taskOK_acquire {hold : Bool} {rest : List Event}
    (h : TaskOK hold (Event.semAcquire :: rest)) :
    hold = false ∧ TaskOK true rest :=
  taskOK_acquire_aux h rest rfl

theorem taskOK_release_aux {hold : Bool} {t : List Event} (h : TaskOK hold t) :
    ∀ rest, t = Event.semRelease :: rest → hold = true ∧ TaskOK false rest := by
  cases h with
  | nosem t hs hm =>
    intro rest heq
    subst heq
    simp [noSem, List.all_cons, isSem] at hs
  | pending a b c hsa hsb hsc hma hmc =>
    intro rest heq
    cases a with
    | nil =>
      simp only [List.nil_append] at heq
      exact absurd (List.cons.inj heq).1 (by simp)
    | cons x a' =>
      simp only [List.cons_append] at heq
      have hx : x = Event.semRelease := (List.cons.inj heq).1
      subst hx
      simp [noSem, List.all_cons, isSem] at hsa
  | holding b c hsb hsc hmc =>
    intro rest heq
    cases b with
    | nil =>
      simp only [List.nil_append] at heq
      have hr : rest = c := (List.cons.inj heq).2.symm
      refine ⟨rfl, ?_⟩
      rw [hr]
      exact TaskOK.nosem c hsc hmc
    | cons x b' =>
      simp only [List.cons_append] at heq
      have hx : x = Event.semRelease := (List.cons.inj heq).1
      subst hx
      simp [noSem, List.all_cons, isSem] at hsb

theorem taskOK_release {hold : Bool} {rest : List Event}
    (h : TaskOK hold (Event.semRelease :: rest)) :
    hold = true ∧ TaskOK false rest :=
  taskOK_release_aux h rest rfl

theorem taskOK_other_aux {hold : Bool} {t : List Event} (h : TaskOK hold t) :
    ∀ e rest, t = e :: rest → e ≠ Event.semAcquire → e ≠ Event.semRelease →
      TaskOK hold rest := by
  cases h with
  | nosem t hs hm =>
    intro e rest heq ha hr
    subst heq
    simp only [noSem, noModel, List.all_cons, Bool.and_eq_true] at hs hm
    exact TaskOK.nosem rest hs.2 hm.2
  | pending a b c hsa hsb hsc hma hmc =>
    intro e rest heq ha hr
    cases a with
    | nil =>
      simp only [List.nil_append] at heq
      exact absurd (List.cons.inj heq).1.symm ha
    | cons x a' =>
      simp only [List.cons_append] at heq
      obtain ⟨hx, hrest⟩ := List.cons.inj heq
      subst hrest
      simp only [noSem, noModel, List.all_cons, Bool.and_eq_true] at hsa hma
      exact TaskOK.pending a' b c hsa.2 hsb hsc hma.2 hmc
  | holding b c hsb hsc hmc =>
    intro e rest heq ha hr
    cases b with
    | nil =>
      simp only [List.nil_append] at heq
      exact absurd (List.cons.inj heq).1.symm hr
    | cons x b' =>
      simp only [List.cons_append] at heq
      obtain ⟨hx, hrest⟩ := List.cons.inj heq
      subst hrest
      simp only [noSem, List.all_cons, Bool.and_eq_true] at hsb
      exact TaskOK.holding b' c hsb.2 hsc hmc

theorem taskOK_other {hold : Bool} {e : Event} {rest : List Event}
    (h : TaskOK hold (e :: rest))
    (ha : e ≠ Event.semAcquire) (hr : e ≠ Event.semRelease) :
    TaskOK hold rest :=
  taskOK_other_aux h e rest rfl ha hr

theorem taskOK_model_aux {hold : Bool} {t : List Event} (h : TaskOK hold t) :
    ∀ rest, t = Event.modelCall :: rest → hold = true := by
  cases h with
  | nosem t hs hm =>
    intro rest heq
    subst heq
    simp [noModel, List.all_cons] at hm
  | pending a b c hsa hsb hsc hma hmc =>
    intro rest heq
    cases a with
    | nil =>
      simp only [List.nil_append] at heq
      exact absurd (List.cons.inj heq).1 (by simp)
    | cons x a' =>
      simp only [List.cons_append] at heq
      have hx : x = Event.modelCall := (List.cons.inj heq).1
      subst hx
      simp [noModel, List.all_cons] at hma
  | holding b c hsb hsc hmc =>
    intro rest heq
    rfl

theorem taskOK_model {hold : Bool} {rest : List Event}
    (h : TaskOK hold (Event.modelCall :: rest)) : hold = true :=
  taskOK_model_aux h rest rfl

/-- State of the cooperative single-threaded interleaving of `process_url`
tasks: the semaphore's free-slot counter (`asyncio.Semaphore(N)`) and, per
task, whether it currently holds a slot and its remaining trace. -/
structure Sched where
  counter : Nat
  tasks : List (Bool × List Event)

/-- Number of tasks currently holding a concurrency slot. -/
def holdingCount (s : Sched) : Nat := s.tasks.countP (fun t => t.1)

/-- One cooperative step: task `i` executes its next event. An acquire blocks
(no step) while the counter is zero — the semaphore's admission discipline —
otherwise it takes a slot; a release returns a slot; other events just
advance the task. -/
def execStep (s : Sched) (i : Nat) : Option Sched :=
  match s.tasks[i]? with
  | some (hold, e :: rest) =>
    if e = Event.semAcquire then
      if s.counter = 0 then none
      else some ⟨s.counter - 1, s.tasks.set i (true, rest)⟩
    else if e = Event.semRelease then
      some ⟨s.counter + 1, s.tasks.set i (false, rest)⟩
    else some ⟨s.counter, s.tasks.set i (hold, rest)⟩
  | _ => none

/-- All schedules reachable from `init` by interleaving task steps in any
order. -/
inductive Reach (init : Sched) : Sched → Prop where
  | refl : Reach init init
  | step {s s' : Sched} {i : Nat} :
      Reach init s → execStep s i = some s' → Reach init s'

/-- Initial schedule: a semaphore with `N` free slots and one pending task
per trace, none holding a slot. -/
def initSched (N : Nat) (ts : List (List Event)) : Sched :=
  ⟨N, ts.map (fun t => (false, t))⟩

/-- The preserved invariant: free slots plus held slots always equal `N`,
and every task's remainder is well formed. -/
def SchedInv (N : Nat) (s : Sched) : Prop :=
  s.counter + holdingCount s = N ∧ ∀ t ∈ s.tasks, TaskOK t.1 t.2

theorem getElemOpt_mem {α : Type} :
    ∀ (l : List α) (i : Nat) (x : α), l[i]? = some x → x ∈ l := by
  intro l
  induction l with
  | nil => intro i x h; simp at h
  | cons a t ih =>
    intro i x h
    cases i with
    | zero =>
      simp only [List.getElem?_cons_zero, Option.some.injEq] at h
      exact h ▸ List.mem_cons_self a t
    | succ n =>
      simp only [List.getElem?_cons_succ] at h
      exact List.mem_cons_of_mem a (ih n x h)

theorem mem_set_or {α : Type} :
    ∀ (l : List α) (i : Nat) (y x : α), x ∈ l.set i y → x ∈ l ∨ x = y := by
  intro l
  induction l with
  | nil => intro i y x h; simp [List.set] at h
  | cons a t ih =>
    intro i y x h
    cases i with
    | zero =>
      simp only [List.set] at h
      rcases List.mem_cons.mp h with h | h
      · exact Or.inr h
      · exact Or.inl (List.mem_cons_of_mem a h)
    | succ n =>
      simp only [List.set] at h
      rcases List.mem_cons.mp h with h | h
      · exact Or.inl (h ▸ List.mem_cons_self a t)
      · rcases ih n y x h with h' | h'
        · exact Or.inl (List.mem_cons_of_mem a h')
        · exact Or.inr h'

theorem countP_set {α : Type} (p : α → Bool) :
    ∀ (l : List α) (i : Nat) (x y : α), l[i]? = some x →
      (l.set i y).countP p + (if p x then 1 else 0) =
        l.countP p + (if p y then 1 else 0) := by
  intro l
  induction l with
  | nil => intro i x y h; simp at h
  | cons a t ih =>
    intro i x y h
    cases i with
    | zero =>
      simp only [List.getElem?_cons_zero, Option.some.injEq] at h
      subst h
      simp [List.set, List.countP_cons]
      omega
    | succ n =>
      simp only [List.getElem?_cons_succ] at h
      have := ih n x y h
      simp [List.set, List.countP_cons]
      omega

theorem schedInv_step {N : Nat} {s s' : Sched} {i : Nat}
    (hinv : SchedInv N s) (hstep : execStep s i = some s') : SchedInv N s' := by
  obtain ⟨hsum, htasks⟩ := hinv
  have hsum' : s.counter + s.tasks.countP (fun t => t.1) = N := hsum
  unfold execStep at hstep
  cases hti : s.tasks[i]? with
  | none => rw [hti] at hstep; simp at hstep
  | some t =>
    obtain ⟨hold, evs⟩ := t
    cases evs with
    | nil => rw [hti] at hstep; simp at hstep
    | cons e rest =>
      rw [hti] at hstep
      have hmem : (hold, e :: rest) ∈ s.tasks := getElemOpt_mem _ _ _ hti
      have htOK : TaskOK hold (e :: rest) := htasks _ hmem
      by_cases ha : e = Event.semAcquire
      · subst ha
        obtain ⟨hh, hrest⟩ := taskOK_acquire htOK
        subst hh
        by_cases hz : s.counter = 0
        · simp [hz] at hstep
        · simp [hz] at hstep
          have hcp := countP_set (fun t => t.1) s.tasks i
            (false, Event.semAcquire :: rest) (true, rest) hti
          simp at hcp
          refine hstep ▸ ⟨?_, ?_⟩
          · show s.counter - 1 + (s.tasks.set i (true, rest)).countP
              (fun t => t.1) = N
            omega
          · intro t ht
            rcases mem_set_or _ _ _ _ ht with h' | h'
            · exact htasks _ h'
            · rw [h']; exact hrest
      · by_cases hr : e = Event.semRelease
        · subst hr
          obtain ⟨hh, hrest⟩ := taskOK_release htOK
          subst hh
          simp at hstep
          have hcp := countP_set (fun t => t.1) s.tasks i
            (true, Event.semRelease :: rest) (false, rest) hti
          simp at hcp
          refine hstep ▸ ⟨?_, ?_⟩
          · show s.counter + 1 + (s.tasks.set i (false, rest)).countP
              (fun t => t.1) = N
            omega
          · intro t ht
            rcases mem_set_or _ _ _ _ ht with h' | h'
            · exact htasks _ h'
            · rw [h']; exact hrest
        · simp [ha, hr] at hstep
          have hcp := countP_set (fun t => t.1) s.tasks i
            (hold, e :: rest) (hold, rest) hti
          simp at hcp
          refine hstep ▸ ⟨?_, ?_⟩
          · show s.counter + (s.tasks.set i (hold, rest)).countP
              (fun t => t.1) = N
            omega
          · intro t ht
            rcases mem_set_or _ _ _ _ ht with h' | h'
            · exact htasks _ h'
            · rw [h']; exact taskOK_other htOK ha hr

theorem schedInv_reach {N : Nat} {init s : Sched}
    (h0 : SchedInv N init) (hr : Reach init s) : SchedInv N s := by
  induction hr with
  | refl => exact h0
  | step _ hstep ih => exact schedInv_step ih hstep

theorem schedInv_init (N : Nat) (ts : List (List Event))
    (h : ∀ t ∈ ts, TaskOK false t) : SchedInv N (initSched N ts) := by
  have hz : ∀ (l : List (List Event)),
      (l.map (fun t => (false, t))).countP (fun t => t.1) = 0 := by
    intro l
    induction l with
    | nil => rfl
    | cons t rest ih => simp [List.countP_cons, ih]
  constructor
  · simp [holdingCount, initSched, hz]
  · intro t ht
    simp only [initSched, List.mem_map] at ht
    obtain ⟨t0, ht0, rfl⟩ := ht
    exact h t0 ht0

theorem save_summary_noSem (st : SummState) (env : Env) (url industry s : String) :
    noSem (save_summary st env url industry s).trace = true := by
  cases hf : env.fileWriteFails with
  | true => rw [save_summary_eq_fileFail st env url industry s hf]; rfl
  | false =>
    cases hw : env.storeWriteFails with
    | true => rw [save_summary_eq_storeFail st env url industry s hf hw]; rfl
    | false => rw [save_summary_eq_ok st env url industry s hf hw]; rfl

theorem summarize_noSem (st : SummState) (env : Env) (url industry : String) :
    noSem (summarize st env url industry).trace = true := by
  cases hd : env.loadDoc with
  | none => rw [summarize_eq_fetchFail st env url industry hd]; rfl
  | some d =>
    cases hs : env.llmResult with
    | error u =>
      cases u
      rw [summarize_eq_llmFail st env url industry d hd hs]; rfl
    | ok s =>
      cases hn : st.need_save_summary with
      | false => rw [summarize_eq_success_noSave st env url industry d s hd hs hn]; rfl
      | true =>
        have hsv := save_summary_noSem st env url industry s
        simp only [summarize, hd, hs, hn, if_true]
        simp [noSem, List.all_cons, isSem] at hsv ⊢
        exact hsv

theorem processUrl_taskOK (st : SummState) (env : Env) (url industry : String) :
    TaskOK false (process_url st env url industry).trace := by
  by_cases hc : storeContains st.processed_links industry url = true
  · rw [process_url_eq_dedup st env url industry hc]
    exact TaskOK.nosem [Event.progressUpdate] rfl rfl
  · have hcf : storeContains st.processed_links industry url = false := by
      simpa using hc
    by_cases hb : env.bodyRaises = true
    · rw [process_url_eq_raise st env url industry hcf hb]
      exact TaskOK.pending [] [] [Event.progressUpdate] rfl rfl rfl rfl rfl
    · have hbf : env.bodyRaises = false := by simpa using hb
      have htr := summarize_noSem st env url industry
      rcases hvv : summarize st env url industry with ⟨st1, tr, v⟩
      rw [hvv] at htr
      have htr' : noSem tr = true := htr
      cases v with
      | none =>
        rw [process_url_eq_none st st1 env url industry tr hcf hbf hvv]
        have heq : Event.semAcquire ::
            (tr ++ [Event.progressUpdate, Event.semRelease]) =
            [] ++ Event.semAcquire ::
              ((tr ++ [Event.progressUpdate]) ++ Event.semRelease :: []) := by
          simp
        rw [heq]
        refine TaskOK.pending [] (tr ++ [Event.progressUpdate]) [] rfl ?_ rfl rfl rfl
        simp [noSem_append, htr']
        rfl
      | some s =>
        by_cases hn : st1.need_save_summary = true
        · rw [process_url_eq_some_save st st1 env url industry s tr hcf hbf hvv hn]
          have hsv : noSem (save_summary st1 env url industry s).trace = true :=
            save_summary_noSem st1 env url industry s
          have heq : Event.semAcquire ::
              (tr ++ (save_summary st1 env url industry s).trace ++
                [Event.progressUpdate, Event.semRelease]) =
              [] ++ Event.semAcquire ::
                ((tr ++ (save_summary st1 env url industry s).trace ++
                  [Event.progressUpdate]) ++ Event.semRelease :: []) := by
            simp
          rw [heq]
          refine TaskOK.pending []
            (tr ++ (save_summary st1 env url industry s).trace ++
              [Event.progressUpdate]) [] rfl ?_ rfl rfl rfl
          simp [noSem_append, htr', hsv]
          rfl
        · have hnf : st1.need_save_summary = false := by simpa using hn
          rw [process_url_eq_some_noSave st st1 env url industry s tr hcf hbf hvv hnf]
          have heq : Event.semAcquire ::
              (tr ++ [Event.progressUpdate, Event.semRelease]) =
              [] ++ Event.semAcquire ::
                ((tr ++ [Event.progressUpdate]) ++ Event.semRelease :: []) := by
            simp
          rw [heq]
          refine TaskOK.pending [] (tr ++ [Event.progressUpdate]) [] rfl ?_ rfl rfl rfl
          simp [noSem_append, htr']
          rfl

theorem processUrl_balanced (st : SummState) (env : Env) (url industry : String) :
    countEv Event.semAcquire (process_url st env url industry).trace =
      countEv Event.semRelease (process_url st env url industry).trace := by
  by_cases hc : storeContains st.processed_links industry url = true
  · rw [process_url_eq_dedup st env url industry hc]; rfl
  · have hcf : storeContains st.processed_links industry url = false := by
      simpa using hc
    by_cases hb : env.bodyRaises = true
    · rw [process_url_eq_raise st env url industry hcf hb]; rfl
    · have hbf : env.bodyRaises = false := by simpa using hb
      have htr := summarize_noSem st env url industry
      rcases hvv : summarize st env url industry with ⟨st1, tr, v⟩
      rw [hvv] at htr
      obtain ⟨hta, htl⟩ := noSem_counts (t := tr) htr
      cases v with
      | none =>
        rw [process_url_eq_none st st1 env url industry tr hcf hbf hvv]
        simp [countEv_cons, countEv_append, countEv_nil, hta, htl]
      | some s =>
        by_cases hn : st1.need_save_summary = true
        · rw [process_url_eq_some_save st st1 env url industry s tr hcf hbf hvv hn]
          obtain ⟨hsa, hsl⟩ := noSem_counts (save_summary_noSem st1 env url industry s)
          simp [countEv_cons, countEv_append, countEv_nil, hta, htl, hsa, hsl]
        · have hnf : st1.need_save_summary = false := by simpa using hn
          rw [process_url_eq_some_noSave st st1 env url industry s tr hcf hbf hvv hnf]
          simp [countEv_cons, countEv_append, countEv_nil, hta, htl]

/-- An environment in which every collaborator succeeds. -/
def envOk : Env := ⟨false, some "doc", .ok "summary", false, false⟩

/-- A fresh `Summarizer` instance state: empty in-memory store, empty store
file, zero counters, `need_save_summary = True` (the `run.py` configuration). -/
def freshState : SummState := ⟨[], [], 0, 0, true⟩

/-- First record call of the C2 scenario: `record("a", "u1", "p1")` on a fresh
instance. -/
def c2AfterFirst : SummState :=
  (save_processed_link freshState envOk "u1" "a" "p1").st

/-- A second writer then adds the key `("b", "u2")` directly to the backing
store file. -/
def c2AfterExternal : SummState :=
  { c2AfterFirst with file := storeInsert c2AfterFirst.file "b" "u2" "p2" }

/-- Second record call of the scenario: `record("a", "u3", "p3")`. -/
def c2AfterSecond : SummState :=
  (save_processed_link c2AfterExternal envOk "u3" "a" "p3").st

/-- Claim C1, counterexample: a persisted Dedup Store file whose content is
unparseable makes `load_processed_links` raise the parse error instead of
returning the empty mapping (`os.path.exists` succeeds, `json.load` raises,
and there is no exception handler). -/
theorem load_corrupt_raises_cex :
    Summarizer.load_processed_links (some (Except.error ())) = Except.error () ∧
    Summarizer.load_processed_links (some (Except.error ())) ≠
      Except.ok ([] : Summarizer.Store) :=
  ⟨rfl, fun h => Except.noConfusion h⟩

/-- Claim C1, amended: `load_processed_links` returns the empty mapping when
the store file is absent and the parsed mapping when it parses, but when the
file exists and its content cannot be parsed the parse error propagates (the
load raises rather than returning the empty mapping). -/
theorem load_processed_links_amended :
    Summarizer.load_processed_links none = Except.ok ([] : Summarizer.Store) ∧
    (∀ s : Summarizer.Store,
      Summarizer.load_processed_links (some (Except.ok s)) = Except.ok s) ∧
    Summarizer.load_processed_links (some (Except.error ())) =
      Except.error () :=
  ⟨rfl, fun _ => rfl, rfl⟩

/-- Claim C2, counterexample: `save_processed_link` does not re-read the
persisted file. A key `("b", "u2")` written to the backing file by another
writer between two record calls is present before the second call and absent
from the persisted store after it — the second call rewrites the file from the
instance's in-memory mapping, clobbering the external key. -/
theorem save_processed_link_no_reread_cex :
    Summarizer.storeLookup Summarizer.c2AfterExternal.file "b" "u2" = some "p2" ∧
    Summarizer.storeLookup Summarizer.c2AfterSecond.file "b" "u2" = none := by
  constructor <;> decide

/-- Claim C2, amended: `save_processed_link` merges the new entry into the
instance's in-memory mapping and rewrites the whole file from that mapping
without re-reading the file, so the persisted result is independent of the
file's prior content; entries recorded through the same instance survive
across calls, but a key written to the backing file by another writer between
two calls is lost. -/
theorem save_processed_link_amended :
    (∀ (st : Summarizer.SummState) (env : Summarizer.Env)
       (url industry fp : String),
       env.storeWriteFails = false →
       (Summarizer.save_processed_link st env url industry fp).st.file =
         Summarizer.storeInsert st.processed_links industry url fp) ∧
    (∀ (st : Summarizer.SummState) (env : Summarizer.Env)
       (u1 u2 industry fp1 fp2 : String),
       env.storeWriteFails = false → u2 ≠ u1 →
       Summarizer.storeLookup
         ((Summarizer.save_processed_link
            (Summarizer.save_processed_link st env u1 industry fp1).st
            env u2 industry fp2).st.file) industry u1 = some fp1 ∧
       Summarizer.storeLookup
         ((Summarizer.save_processed_link
            (Summarizer.save_processed_link st env u1 industry fp1).st
            env u2 industry fp2).st.file) industry u2 = some fp2) := by
  constructor
  · intro st env url industry fp hw
    simp [Summarizer.save_processed_link, hw]
  · intro st env u1 u2 industry fp1 fp2 hw hne
    have h1 : (Summarizer.save_processed_link st env u1 industry fp1).st.processed_links
        = Summarizer.storeInsert st.processed_links industry u1 fp1 := by
      simp [Summarizer.save_processed_link, hw]
    have h2 : (Summarizer.save_processed_link
          (Summarizer.save_processed_link st env u1 industry fp1).st
          env u2 industry fp2).st.file
        = Summarizer.storeInsert
            (Summarizer.storeInsert st.processed_links industry u1 fp1)
            industry u2 fp2 := by
      simp [Summarizer.save_processed_link, hw, h1]
    rw [h2]
    refine ⟨?_, Summarizer.storeLookup_storeInsert_self _ _ _ _⟩
    rw [Summarizer.storeLookup_storeInsert_ne_url _ _ _ _ _ (Ne.symm hne)]
    exact Summarizer.storeLookup_storeInsert_self _ _ _ _

/-- Witness for the amended C2 theorem at a concrete instance: the persisted
file after one record equals the insertion into the in-memory mapping, and
two successive records through the same instance both survive. -/
theorem save_processed_link_amended_witness :
    (Summarizer.save_processed_link Summarizer.freshState Summarizer.envOk
        "x" "a" "p").st.file =
      Summarizer.storeInsert ([] : Summarizer.Store) "a" "x" "p" ∧
    Summarizer.storeLookup
      ((Summarizer.save_processed_link
         (Summarizer.save_processed_link Summarizer.freshState Summarizer.envOk
           "x" "a" "p1").st
         Summarizer.envOk "y" "a" "p2").st.file) "a" "x" = some "p1" :=
  ⟨save_processed_link_amended.1 Summarizer.freshState Summarizer.envOk
     "x" "a" "p" rfl,
   (save_processed_link_amended.2 Summarizer.freshState Summarizer.envOk
     "x" "y" "a" "p1" "p2" rfl (by decide)).1⟩

/-- Claim C3: for a `(industry, url)` pair already present in the Dedup Store,
`process_url` is an idempotent no-op — its whole observable behaviour is one
progress update (no fetch, no model call, no summary-file write, no Dedup
Store write, state otherwise unchanged) — and after a first fully successful
call for a pair not yet in the store, a second call for the same pair is that
no-op, whatever its environment does. -/
theorem process_url_idempotent :
    (∀ (st : Summarizer.SummState) (env : Summarizer.Env) (url industry : String),
       Summarizer.storeContains st.processed_links industry url = true →
       Summarizer.process_url st env url industry =
         ⟨{ st with progress := st.progress + 1 },
          [Summarizer.Event.progressUpdate], none⟩) ∧
    (∀ (st : Summarizer.SummState) (env env2 : Summarizer.Env)
       (url industry d s : String),
       Summarizer.storeContains st.processed_links industry url = false →
       env.bodyRaises = false → env.loadDoc = some d →
       env.llmResult = .ok s → st.need_save_summary = true →
       env.fileWriteFails = false → env.storeWriteFails = false →
       Summarizer.process_url (Summarizer.process_url st env url industry).st
           env2 url industry =
         ⟨{ (Summarizer.process_url st env url industry).st with
              progress :=
                (Summarizer.process_url st env url industry).st.progress + 1 },
          [Summarizer.Event.progressUpdate], none⟩) := by
  constructor
  · intro st env url industry hc
    exact Summarizer.process_url_eq_dedup st env url industry hc
  · intro st env env2 url industry d s hc hb hd hs hn hf hw
    have h1 := Summarizer.process_url_eq_success st env url industry d s
      hc hb hd hs hn hf hw
    apply Summarizer.process_url_eq_dedup
    rw [h1]
    exact Summarizer.storeContains_storeInsert_self _ _ _ _

/-- Witness for C3 at concrete inputs: a fresh instance, an all-success
environment, URL `http://h/x` under industry `a`; the second call is the
dedup no-op. -/
theorem process_url_idempotent_witness :
    Summarizer.process_url
        (Summarizer.process_url Summarizer.freshState Summarizer.envOk
          "http://h/x" "a").st
        Summarizer.envOk "http://h/x" "a" =
      ⟨{ (Summarizer.process_url Summarizer.freshState Summarizer.envOk
            "http://h/x" "a").st with
           progress :=
             (Summarizer.process_url Summarizer.freshState Summarizer.envOk
               "http://h/x" "a").st.progress + 1 },
       [Summarizer.Event.progressUpdate], none⟩ :=
  process_url_idempotent.2 Summarizer.freshState Summarizer.envOk
    Summarizer.envOk "http://h/x" "a" "doc" "summary"
    (by decide) rfl rfl rfl rfl rfl rfl

/-- Claim C4: for any concurrency width `N` and any set of `process_url`
tasks interleaved in any order under the semaphore's admission discipline, at
no reachable point do more than `N` tasks hold a concurrency slot; a model
call can only be executed by a task currently holding a slot (so at most `N`
summarizations are in flight); and every `process_url` trace releases the
slot exactly as often as it acquires it — on every exit path, including the
exception path. -/
theorem admission_gate_bound (N : Nat) (ts : List (List Summarizer.Event))
    (hts : ∀ t ∈ ts, ∃ st env url industry,
      t = (Summarizer.process_url st env url industry).trace)
    (s : Summarizer.Sched)
    (hr : Summarizer.Reach (Summarizer.initSched N ts) s) :
    Summarizer.holdingCount s ≤ N ∧
    (∀ (i : Nat) (hold : Bool) (rest : List Summarizer.Event),
       s.tasks[i]? = some (hold, Summarizer.Event.modelCall :: rest) →
       hold = true) ∧
    (∀ (st : Summarizer.SummState) (env : Summarizer.Env)
       (url industry : String),
       Summarizer.countEv Summarizer.Event.semAcquire
         (Summarizer.process_url st env url industry).trace =
       Summarizer.countEv Summarizer.Event.semRelease
         (Summarizer.process_url st env url industry).trace) := by
  have h0 : Summarizer.SchedInv N (Summarizer.initSched N ts) :=
    Summarizer.schedInv_init N ts (fun t ht => by
      obtain ⟨st, env, url, industry, rfl⟩ := hts t ht
      exact Summarizer.processUrl_taskOK st env url industry)
  have hinv := Summarizer.schedInv_reach h0 hr
  refine ⟨?_, ?_, Summarizer.processUrl_balanced⟩
  · have h1 := hinv.1
    omega
  · intro i hold rest hti
    exact Summarizer.taskOK_model
      (hinv.2 _ (Summarizer.getElemOpt_mem _ _ _ hti))

/-- Witness for C4: a width-1 gate with one concrete successful
`process_url` task; the bound holds at the initial schedule. -/
theorem admission_gate_bound_witness :
    Summarizer.holdingCount
      (Summarizer.initSched 1
        [(Summarizer.process_url Summarizer.freshState Summarizer.envOk
           "http://w" "a").trace]) ≤ 1 :=
  (admission_gate_bound 1
    [(Summarizer.process_url Summarizer.freshState Summarizer.envOk
       "http://w" "a").trace]
    (by
      intro t ht
      simp only [List.mem_singleton] at ht
      exact ⟨Summarizer.freshState, Summarizer.envOk, "http://w", "a", ht⟩)
    _ Summarizer.Reach.refl).1

/-- Claim C5: every `process_url` call advances the progress counter by
exactly one — its trace contains exactly one progress update, whatever the
mix of dedup, success and failure — and a batch of `K` links advances the
counter by exactly `K`. -/
theorem progress_exactly_once :
    (∀ (st : Summarizer.SummState) (env : Summarizer.Env) (url industry : String),
       Summarizer.countEv Summarizer.Event.progressUpdate
         (Summarizer.process_url st env url industry).trace = 1 ∧
       (Summarizer.process_url st env url industry).st.progress =
         st.progress + 1) ∧
    (∀ (st : Summarizer.SummState)
       (links : List (Summarizer.Env × String × String)),
       (Summarizer.processBatch st links).progress =
         st.progress + links.length) := by
  constructor
  · exact Summarizer.process_url_step_progress
  · intro st links
    induction links generalizing st with
    | nil => simp [Summarizer.processBatch]
    | cons l ls ih =>
      have hstep := (Summarizer.process_url_step_progress st l.1 l.2.1 l.2.2).2
      calc (Summarizer.processBatch st (l :: ls)).progress
          = (Summarizer.processBatch
              (Summarizer.process_url st l.1 l.2.1 l.2.2).st ls).progress := rfl
        _ = (Summarizer.process_url st l.1 l.2.1 l.2.2).st.progress
              + ls.length := ih _
        _ = st.progress + (ls.length + 1) := by rw [hstep]; omega
        _ = st.progress + (l :: ls).length := by simp

/-- Claim C9: on a successful summarization with `need_save_summary` enabled,
one `process_url` call performs the summary-file write twice and the Dedup
Store write twice (once from inside `summarize`, once again from
`process_url`), while the model is invoked only once. -/
theorem double_save_summary :
    ∀ (st : Summarizer.SummState) (env : Summarizer.Env)
      (url industry d s : String),
      Summarizer.storeContains st.processed_links industry url = false →
      env.bodyRaises = false → env.loadDoc = some d →
      env.llmResult = .ok s → st.need_save_summary = true →
      env.fileWriteFails = false → env.storeWriteFails = false →
      Summarizer.countEv Summarizer.Event.summaryFileWrite
        (Summarizer.process_url st env url industry).trace = 2 ∧
      Summarizer.countEv Summarizer.Event.dedupStoreWrite
        (Summarizer.process_url st env url industry).trace = 2 ∧
      Summarizer.countEv Summarizer.Event.modelCall
        (Summarizer.process_url st env url industry).trace = 1 ∧
      (Summarizer.process_url st env url industry).val = some s := by
  intro st env url industry d s hc hb hd hs hn hf hw
  rw [Summarizer.process_url_eq_success st env url industry d s hc hb hd hs hn hf hw]
  exact ⟨rfl, rfl, rfl, rfl⟩

/-- Witness for C9 at concrete inputs: fresh instance, all-success
environment. -/
theorem double_save_summary_witness :
    Summarizer.countEv Summarizer.Event.summaryFileWrite
      (Summarizer.process_url Summarizer.freshState Summarizer.envOk
        "http://h/y" "a").trace = 2 ∧
    Summarizer.countEv Summarizer.Event.modelCall
      (Summarizer.process_url Summarizer.freshState Summarizer.envOk
        "http://h/y" "a").trace = 1 := by
  have h := double_save_summary Summarizer.freshState Summarizer.envOk
    "http://h/y" "a" "doc" "summary" (by decide) rfl rfl rfl rfl rfl rfl
  exact ⟨h.1, h.2.2.1⟩

/-- Claim C10: `save_summary` never raises (its whole body is guarded by a
catch-all handler), and when persisting fails, `process_url` still counts the
link as summarized and returns the summary even though neither the summary
file nor the Dedup Store entry was written. -/
theorem save_summary_never_raises :
    (∀ (st : Summarizer.SummState) (env : Summarizer.Env)
       (url industry s : String),
       (Summarizer.save_summary st env url industry s).val = Except.ok ()) ∧
    (∀ (st : Summarizer.SummState) (env : Summarizer.Env)
       (url industry d s : String),
       Summarizer.storeContains st.processed_links industry url = false →
       env.bodyRaises = false → env.loadDoc = some d →
       env.llmResult = .ok s → st.need_save_summary = true →
       env.fileWriteFails = true →
       (Summarizer.process_url st env url industry).val = some s ∧
       (Summarizer.process_url st env url industry).st.summarized_links =
         st.summarized_links + 1 ∧
       Summarizer.countEv Summarizer.Event.summaryFileWrite
         (Summarizer.process_url st env url industry).trace = 0 ∧
       Summarizer.countEv Summarizer.Event.dedupStoreWrite
         (Summarizer.process_url st env url industry).trace = 0) := by
  constructor
  · intro st env url industry s
    cases hf : env.fileWriteFails with
    | true => rw [Summarizer.save_summary_eq_fileFail st env url industry s hf]
    | false =>
      cases hw : env.storeWriteFails with
      | true => rw [Summarizer.save_summary_eq_storeFail st env url industry s hf hw]
      | false => rw [Summarizer.save_summary_eq_ok st env url industry s hf hw]
  · intro st env url industry d s hc hb hd hs hn hf
    rw [Summarizer.process_url_eq_fileFail st env url industry d s hc hb hd hs hn hf]
    exact ⟨rfl, rfl, rfl, rfl⟩

/-- Witness for C10 at concrete inputs: an environment whose summary-file
write raises; the link is still counted as summarized and the summary is
returned, with zero persisted writes. -/
theorem save_summary_never_raises_witness :
    (Summarizer.save_summary Summarizer.freshState
      ⟨false, some "doc", .ok "summary", true, false⟩
      "http://h/z" "a" "summary").val = Except.ok () ∧
    (Summarizer.process_url Summarizer.freshState
      ⟨false, some "doc", .ok "summary", true, false⟩
      "http://h/z" "a").st.summarized_links = 1 :=
  ⟨save_summary_never_raises.1 Summarizer.freshState
     ⟨false, some "doc", .ok "summary", true, false⟩ "http://h/z" "a" "summary",
   (save_summary_never_raises.2 Summarizer.freshState
     ⟨false, some "doc", .ok "summary", true, false⟩
     "http://h/z" "a" "doc" "summary" (by decide) rfl rfl rfl rfl rfl).2.1⟩

end Summarizer

namespace SearchAgg

/-- Outcome of the search request for one query: `.error ()` models
`requests.get` raising (network failure); `.ok (status, hrefs)` models a
response with the given status code and the `href` of each
`div.yuRUbf > a` result anchor on the parsed page. -/
abbrev FetchResult := Except Unit (Nat × List String)

/-- `SearchResultAggregator.get_search_results(query)`: on a 200 response,
keep only hrefs starting with `http` and slice the filtered list to
`[start:stop]` (Python list-slice semantics for the non-negative offsets the
class is configured with); on any other status return the empty list; a
raised request exception propagates to the caller. -/
def get_search_results (response : FetchResult) (start stop : Nat) :
    Except Unit (List String) :=
  match response with
  | .error e => .error e
  | .ok (status, hrefs) =>
    if status = 200 then
      .ok (((hrefs.filter (fun l => str_startswith l "http")).drop start).take
        (stop - start))
    else .ok []

/-- The contribution of one query to `stream_links_by_industry`: the consumer
loop catches any exception from the query's future (`future.result()`),
logs it, and yields nothing for that query; otherwise it yields one
`(industry, link)` pair per returned link. -/
def linksForQuery (fetch : String → FetchResult) (start stop : Nat)
    (industry query : String) : List (String × String) :=
  match get_search_results (fetch query) start stop with
  | .error _ => []
  | .ok links => links.map (fun l => (industry, l))

/-- `SearchResultAggregator.stream_links_by_industry`: for each industry, all
queries are submitted to the pool and their links streamed as
`(industry, link)` pairs (modelled in submission order; the claims do not
concern completion order). -/
def stream_links_by_industry (queries : List (String × List String))
    (fetch : String → FetchResult) (start stop : Nat) :
    List (String × String) :=
  queries.flatMap (fun p =>
    p.2.flatMap (fun q => linksForQuery fetch start stop p.1 q))

end SearchAgg

/-- Claim C7: link discovery degrades gracefully per query — a query whose
fetch raises contributes zero links and does not stop the stream produced
from the queries before and after it, and a non-200 search response yields
the empty link list for its query rather than an error. -/
theorem discovery_failure_isolation :
    (∀ (industry badQuery : String) (qs1 qs2 : List String)
       (fetch : String → SearchAgg.FetchResult) (start stop : Nat),
       fetch badQuery = .error () →
       SearchAgg.stream_links_by_industry [(industry, qs1 ++ badQuery :: qs2)]
           fetch start stop =
         SearchAgg.stream_links_by_industry [(industry, qs1)] fetch start stop
           ++
         SearchAgg.stream_links_by_industry [(industry, qs2)] fetch start
           stop) ∧
    (∀ (fetch : String → SearchAgg.FetchResult) (industry query : String)
       (start stop status : Nat) (hrefs : List String),
       fetch query = .ok (status, hrefs) → status ≠ 200 →
       SearchAgg.linksForQuery fetch start stop industry query = []) := by
  constructor
  · intro industry badQuery qs1 qs2 fetch start stop hbad
    simp [SearchAgg.stream_links_by_industry, SearchAgg.linksForQuery,
      SearchAgg.get_search_results, hbad]
  · intro fetch industry query start stop status hrefs hok hne
    simp [SearchAgg.linksForQuery, SearchAgg.get_search_results, hok, hne]

/-- Witness for C7: the failing query `bad` between `q1` and `q2` contributes
nothing, and a 503 response yields the empty list. -/
theorem discovery_failure_isolation_witness :
    SearchAgg.stream_links_by_industry
        [("a", ["q1"] ++ "bad" :: ["q2"])]
        (fun q => if q = "bad" then .error () else .ok (200, ["http://x"]))
        0 5 =
      SearchAgg.stream_links_by_industry [("a", ["q1"])]
        (fun q => if q = "bad" then .error () else .ok (200, ["http://x"]))
        0 5 ++
      SearchAgg.stream_links_by_industry [("a", ["q2"])]
        (fun q => if q = "bad" then .error () else .ok (200, ["http://x"]))
        0 5 ∧
    SearchAgg.linksForQuery (fun _ => .ok (503, ["http://y"])) 0 5 "a" "q" =
      [] :=
  ⟨discovery_failure_isolation.1 "a" "bad" ["q1"] ["q2"] _ 0 5 (by simp),
   discovery_failure_isolation.2 _ "a" "q" 0 5 503 ["http://y"] rfl
     (by decide)⟩

/-- Claim C8: on a 200 response, `get_search_results` returns exactly the
`[start:stop]` slice of the `http`-filtered extraction: every returned link
starts with `http`, the result equals the filtered list sliced a second time
to the requested window, and its length is at most `stop - start`. -/
theorem search_results_filter_slice :
    ∀ (hrefs : List String) (start stop : Nat),
      SearchAgg.get_search_results (.ok (200, hrefs)) start stop =
        .ok (((hrefs.filter (fun l => str_startswith l "http")).drop start).take
          (stop - start)) ∧
      (∀ links, SearchAgg.get_search_results (.ok (200, hrefs)) start stop =
          .ok links →
        (∀ l ∈ links, str_startswith l "http" = true) ∧
        links.length ≤ stop - start) := by
  intro hrefs start stop
  refine ⟨by simp [SearchAgg.get_search_results], ?_⟩
  intro links hlinks
  simp only [SearchAgg.get_search_results, if_true, Except.ok.injEq,
    reduceIte] at hlinks
  subst hlinks
  constructor
  · intro l hl
    have hmem : l ∈ hrefs.filter (fun l => str_startswith l "http") :=
      List.mem_of_mem_drop (List.mem_of_mem_take hl)
    exact (List.mem_filter.mp hmem).2
  · simp [List.length_take]

/-- Witness for C8 at a concrete page: two `http(s)` links and one relative
link, window `[1, 3)`. -/
theorem search_results_filter_slice_witness :
    SearchAgg.get_search_results
        (.ok (200, ["http://a", "/rel", "https://b", "http://c"])) 1 3 =
      .ok ["https://b", "http://c"] ∧
    (∀ l ∈ (["https://b", "http://c"] : List String),
      str_startswith l "http" = true) := by
  have h := search_results_filter_slice
    ["http://a", "/rel", "https://b", "http://c"] 1 3
  refine ⟨?_, ?_⟩
  · rw [h.1]; exact congrArg Except.ok (by decide)
  · intro l hl
    exact (h.2 ["https://b", "http://c"]
      (by rw [h.1]; exact congrArg Except.ok (by decide))).1 l hl

namespace ReportGen

/-- Model of the filesystem state the Report Aggregator touches for one
industry: the summary directory `summarized_sources/<industry>` (`none` =
directory absent), the per-summary judgment directory
`reports/<industry>/for_each_summary` (`none` = absent), and the list of
written final report files. Directory contents are (filename, content)
pairs. -/
structure ReportFS where
  summaryFiles : Option (List (String × String))
  judgmentFiles : Option (List (String × String))
  finalReports : List (String × String)
deriving Repr

/-- `ReportGenerator.load_summaries(industry)`: `os.walk` over the summary
directory yields nothing when the directory does not exist, so an absent
directory produces the empty list; otherwise the `.md` files are returned
with their contents. -/
def load_summaries (fs : ReportFS) : List (String × String) :=
  match fs.summaryFiles with
  | none => []
  | some files => files.filter (fun p => str_endswith p.1 ".md")

/-- `os.path.splitext(filename)[0]`. -/
def splitextRoot (s : String) : String :=
  match s.splitOn "." with
  | [] => s
  | [_] => s
  | parts => String.intercalate "." parts.dropLast

/-- `ReportGenerator.generate_report(summaries, industry)`: unconditionally
creates the judgment directory (`os.makedirs(report_dir, exist_ok=True)`),
then for each summary writes `<name>_report.md` with the model's judgment,
skipping files that already exist non-empty. `judge summary industry` models
the `process_summary` model call. -/
def generate_report (judge : String → String → String)
    (summaries : List (String × String)) (industry : String)
    (fs : ReportFS) : ReportFS :=
  let dir0 := fs.judgmentFiles.getD []
  let dir1 := summaries.foldl (fun dir p =>
    let rf := splitextRoot p.1 ++ "_report.md"
    match lookupA dir rf with
    | some content => if content = "" then setA dir rf (judge p.2 industry) else dir
    | none => setA dir rf (judge p.2 industry)) dir0
  { fs with judgmentFiles := some dir1 }

end ReportGen

namespace ReportParser

/-- `report_parser.extract_name_from_url`. -/
def extract_name_from_url (url : String) : String :=
  let rest :=
    match url.splitOn "//" with
    | _ :: r :: _ => r
    | _ => ""
  let domain := (rest.splitOn "/").headD ""
  let domain := (domain.splitOn "?").headD ""
  let domain := (domain.splitOn "#").headD ""
  if str_startswith domain "www." then domain.drop 4 else domain

/-- The value captured by `re.search` for a fixed field marker: the text
after the first occurrence of `"<field>": "` in the line, up to the closing
quote, subject to the pattern's constraint on the value. -/
def extractAfter (line marker : String) : Option String :=
  match line.splitOn marker with
  | _ :: rest :: _ => some rest
  | _ => none

/-- `parse_line` with the url pattern: the value must be non-empty, start
with `http://` or `https://`, and be terminated by a closing quote. -/
def parse_url_line (line : String) : Option String :=
  match extractAfter line "\"url\": \"" with
  | none => none
  | some rest =>
    match rest.splitOn "\"" with
    | v :: _ :: _ =>
      if v ≠ "" ∧ (str_startswith v "http://" ∨ str_startswith v "https://")
      then some v else none
    | _ => none

/-- `parse_line` with the reliable pattern `(Yes|No)` closed by a quote. -/
def parse_reliable_line (line : String) : Option String :=
  match extractAfter line "\"reliable\": \"" with
  | none => none
  | some rest =>
    if str_startswith rest "Yes\"" then some "Yes"
    else if str_startswith rest "No\"" then some "No"
    else none

/-- `parse_line` with the reason pattern: non-empty value closed by a
quote. -/
def parse_reason_line (line : String) : Option String :=
  match extractAfter line "\"reason\": \"" with
  | none => none
  | some rest =>
    match rest.splitOn "\"" with
    | v :: _ :: _ => if v ≠ "" then some v else none
    | _ => none

/-- Whether a substring occurs in a line (Python `pat in line`). -/
def containsSub (line pat : String) : Bool :=
  match line.splitOn pat with
  | [] => false
  | [_] => false
  | _ => true

/-- The dict built by `process_file`: each field is overwritten whenever its
marker occurs in a later line (even by a failed parse, mirroring
`data['url'] = parse_line(...)` storing `None`). -/
structure Parsed where
  url : Option String := none
  reliable : Option String := none
  reason : Option String := none

/-- `report_parser.process_file`: scan the judgment file line by line,
extracting `url`, `reliable` and `reason` via the fixed patterns. -/
def process_file (content : String) : Parsed :=
  (content.splitOn "\n").foldl (fun d line =>
    let d := if containsSub line "\"url\"" then
        { d with url := parse_url_line line } else d
    let d := if containsSub line "\"reliable\"" then
        { d with reliable := parse_reliable_line line } else d
    if containsSub line "\"reason\"" then
      { d with reason := parse_reason_line line } else d) {}

/-- Python `str.capitalize`. -/
def capitalize (s : String) : String :=
  match s.toList with
  | [] => ""
  | c :: cs => String.mk (c.toUpper :: cs.map Char.toLower)

/-- `report_parser.generate_report`: render the two-table Markdown report
from the selected and rejected (pretty-url, reason) rows. -/
def generate_report (selected rejected : List (String × String))
    (industry : String) : String :=
  let ind := capitalize (String.intercalate " " (industry.splitOn "_"))
  let header := "## Report on information source search for RND platform in the "
    ++ ind ++ " industry**\n\n"
  let selHeader := "### **Selected sources (" ++ toString selected.length
    ++ "):**\n\n| **Source** | **Reasons for selection** |\n|---|---|\n"
  let selRows := String.join (selected.map (fun s =>
    "| " ++ s.1 ++ " | " ++ s.2 ++ " |\n"))
  let rejHeader := "\n\n### **Rejected sources (" ++ toString rejected.length
    ++ "):**\n\n| **Source** | **Reasons for rejection** |\n|---|---|\n"
  let rejRows := String.join (rejected.map (fun s =>
    "| " ++ s.1 ++ " | " ++ s.2 ++ " |\n"))
  header ++ selHeader ++ selRows ++ rejHeader ++ rejRows

/-- The final report path
`reports/<industry>/<industry>_total_report_<timestamp>.md`. -/
def reportPath (industry timestamp : String) : String :=
  "reports/" ++ industry ++ "/" ++ industry ++ "_total_report_" ++ timestamp
    ++ ".md"

/-- `report_parser.process_reports(industry)`: if the judgment directory does
not exist, print a skip message and return without writing anything
(returned flag `false`); otherwise parse every `.md` judgment file, keep
those with a url, partition on `reliable == "Yes"`, and write a new
timestamped final report (returned flag `true`). -/
def process_reports (fs : ReportGen.ReportFS) (industry timestamp : String) :
    ReportGen.ReportFS × Bool :=
  match fs.judgmentFiles with
  | none => (fs, false)
  | some files =>
    let parsed := (files.filter (fun p => str_endswith p.1 ".md")).map
      (fun p => process_file p.2)
    let withUrl := parsed.filterMap (fun d =>
      match d.url with
      | some u =>
        some ("[" ++ extract_name_from_url u ++ "](" ++ u ++ ")",
              d.reason.getD "", d.reliable)
      | none => none)
    let selected := (withUrl.filter (fun r => r.2.2 = some "Yes")).map
      (fun r => (r.1, r.2.1))
    let rejected := (withUrl.filter (fun r => ¬(r.2.2 = some "Yes"))).map
      (fun r => (r.1, r.2.1))
    let report := generate_report selected rejected industry
    ({ fs with finalReports := (reportPath industry timestamp, report)
        :: fs.finalReports },
     true)

/-- The per-industry aggregation flow of `report_generator.main` and
`run.py`: load the summaries, generate per-summary judgments, then fold the
judgments into the final report. -/
def aggregate (judge : String → String → String) (fs : ReportGen.ReportFS)
    (industry timestamp : String) : ReportGen.ReportFS × Bool :=
  let summaries := ReportGen.load_summaries fs
  let fs1 := ReportGen.generate_report judge summaries industry fs
  process_reports fs1 industry timestamp

end ReportParser

/-- Claim C6, counterexample: for an industry whose summary directory does
not exist (fresh state, no prior judgment directory either), the full
aggregation flow is not skipped: `generate_report` creates the judgment
directory unconditionally, `process_reports` therefore runs, and a final
report file with zero sources is written. -/
theorem missing_summary_dir_not_skipped_cex :
    (ReportParser.aggregate (fun _ _ => "")
      ⟨none, none, []⟩ "x" "t").2 = true ∧
    (ReportParser.aggregate (fun _ _ => "")
      ⟨none, none, []⟩ "x" "t").1.finalReports.length = 1 :=
  ⟨rfl, rfl⟩

/-- Claim C6, amended: the skip is keyed on the per-summary judgment
directory, not the summary directory. `process_reports` skips (writing
nothing) exactly when `reports/<industry>/for_each_summary` is absent; a
missing summary directory is instead treated as zero summaries —
`generate_report` creates the judgment directory unconditionally, so the
full aggregation then writes a final report with empty source tables rather
than skipping. -/
theorem aggregation_skip_amended :
    (∀ (fs : ReportGen.ReportFS) (industry timestamp : String),
       fs.judgmentFiles = none →
       ReportParser.process_reports fs industry timestamp = (fs, false)) ∧
    (∀ (judge : String → String → String) (fs : ReportGen.ReportFS)
       (industry timestamp : String),
       fs.summaryFiles = none → fs.judgmentFiles = none →
       ReportParser.aggregate judge fs industry timestamp =
         ({ fs with judgmentFiles := some [],
                    finalReports :=
                      (ReportParser.reportPath industry timestamp,
                       ReportParser.generate_report [] [] industry)
                        :: fs.finalReports },
          true)) := by
  constructor
  · intro fs industry ts h
    simp [ReportParser.process_reports, h]
  · intro judge fs industry ts hs hj
    simp [ReportParser.aggregate, ReportGen.load_summaries, hs,
      ReportGen.generate_report, hj, ReportParser.process_reports]

/-- Witness for the amended C6 theorem at concrete states: a state with
summaries but no judgment directory is skipped by `process_reports`, and a
state with no summary directory yields one empty final report from the full
aggregation. -/
theorem aggregation_skip_amended_witness :
    ReportParser.process_reports
        ⟨some [("h.md", "x")], none, []⟩ "e_commerce" "t0" =
      (⟨some [("h.md", "x")], none, []⟩, false) ∧
    ReportParser.aggregate (fun _ _ => "")
        ⟨none, none, []⟩ "venture_capital" "t1" =
      ({ summaryFiles := none, judgmentFiles := some [],
         finalReports := [(ReportParser.reportPath "venture_capital" "t1",
           ReportParser.generate_report [] [] "venture_capital")] },
       true) :=
  ⟨aggregation_skip_amended.1 ⟨some [("h.md", "x")], none, []⟩
     "e_commerce" "t0" rfl,
   aggregation_skip_amended.2 (fun _ _ => "") ⟨none, none, []⟩
     "venture_capital" "t1" rfl rfl⟩
